import Mathlib

/-!
# Splash: path utilities, Bezier-patch combinatorics and the value codec

A shallow embedding of

* `Splash::Utils::cleanPath` and `Splash::Utils::getFilenameFromFilePath`
  (`src/include/osUtils.h`),
* `Mesh_BezierPatch::factorial` (both overloads) and
  `Mesh_BezierPatch::binomialCoeff` (`src/include/mesh_bezierPatch.h`),
* the value codec `PythonEmbedded::convertFromValue` / `convertToValue`
  (`src/include/controller_pythonEmbedded.h` only declares them).

`std::string` is a `List Char`; `int32_t` is an `Int` wrapped with `wrap32`
after every multiplication; `size_t` is a `Nat` below `2 ^ 64`.
-/

set_option autoImplicit false

namespace Splash

/-! ## Machine integers -/

/-- Two's-complement reduction of an integer to the `int32_t` range. -/
def wrap32 (x : Int) : Int := (x + 2 ^ 31) % 2 ^ 32 - 2 ^ 31

/-- Conversion of a signed `int` to `size_t` (64 bit), as the usual arithmetic
conversions do when an `int` is compared with `std::vector::size()`: the value
modulo `2 ^ 64`. An `int` is at least `-2 ^ 31`, so a negative one becomes
`i + 2 ^ 64` and a non-negative one keeps its value. -/
def toSizeT (i : Int) : Nat := if 0 ≤ i then i.toNat else (i + 2 ^ 64).toNat

namespace Mesh_BezierPatch

/-- Recursion of `factorial(int32_t i)`:
`(i == 0 || i == 1) ? 1 : factorial(i - 1) * i`. The fuel bounds the recursion
depth; `none` is a recursion that does not bottom out within the fuel. -/
def factorialAux : Nat → Int → Option Int
  | 0, _ => none
  | fuel + 1, i =>
    if i = 0 ∨ i = 1 then some 1
    else (factorialAux fuel (wrap32 (i - 1))).map (fun r => wrap32 (r * i))

/-- One-argument `factorial(int32_t i)`. A non-negative `i` needs `i` nested
calls at most; a negative one never reaches `0` or `1` by counting down
without overflowing, which is `none`. -/
def factorial (i : Int) : Option Int := factorialAux (i.toNat + 1) i

/-- Loop of `factorial(int32_t n, int32_t k)`:
`for (i = n - k + 1; i <= n; ++i) res *= i;`, `none` when the fuel runs out
before the loop condition fails. -/
def semiFactorialLoop : Nat → Int → Int → Int → Option Int
  | 0, _, _, _ => none
  | fuel + 1, n, i, res =>
    if i ≤ n then semiFactorialLoop fuel n (i + 1) (wrap32 (res * i)) else some res

/-- Two-argument overload `factorial(int32_t n, int32_t k)` (the "semi"
factorial). Lean has no overloading inside one namespace, hence the name. The
loop body runs `n - (n - k + 1) + 1` times when that is positive and not at all
otherwise; the fuel is one more, for the final test of the condition. -/
def semiFactorial (n k : Int) : Option Int :=
  semiFactorialLoop ((n - wrap32 (n - k + 1) + 1).toNat + 1) n (wrap32 (n - k + 1)) 1

/-- Source `binomialCoeff(int32_t n, int32_t i)`:
`if (n < i) return 0; return factorial(n, i) / factorial(i);`.
C++ `/` truncates towards zero; a zero divisor is undefined behaviour, `none`. -/
def binomialCoeff (n i : Int) : Option Int :=
  if n < i then some 0
  else
    match semiFactorial n i, factorial i with
    | some a, some d => if d = 0 then none else some (Int.tdiv a d)
    | _, _ => none

end Mesh_BezierPatch

/-! ## Strings -/

/-- A `std::string`, as the list of its characters. -/
abbrev Str := List Char

/-- `std::string::find` for a one-character needle: the first position of `c`,
`none` for `std::string::npos`. -/
def find (c : Char) : Str → Option Nat
  | [] => none
  | x :: xs => if x = c then some 0 else (find c xs).map (· + 1)

/-- `std::string::rfind` for a one-character needle: the last position of `c`,
`none` for `std::string::npos`. -/
def rfind (c : Char) : Str → Option Nat
  | [] => none
  | x :: xs =>
    match rfind c xs with
    | some k => some (k + 1)
    | none => if x = c then some 0 else none

/-- `s.substr(pos, n)`; `n = none` is `std::string::npos` (to the end). -/
def substr (s : Str) (pos : Nat) (n : Option Nat) : Str :=
  match n with
  | none => s.drop pos
  | some k => (s.drop pos).take k

namespace Utils

/-- Source `getFilenameFromFilePath`:
`slashPos = filepath.rfind("/")`, then `filepath` itself when that is `npos`
and `filepath.substr(slashPos + 1)` otherwise. -/
def getFilenameFromFilePath (filepath : Str) : Str :=
  match rfind '/' filepath with
  | none => filepath
  | some slashPos => substr filepath (slashPos + 1) none

/-- First loop of `cleanPath`: cut `remain` into `links` at the slashes. A
leading slash is skipped (`remain.substr(1, npos)`); otherwise the text before
the next slash is pushed and `remain` continues after that slash, or is cleared
when there is none. `none` when the fuel runs out with `remain` not yet empty. -/
def splitLoop : Nat → Str → List Str → Option (List Str)
  | 0, _, _ => none
  | fuel + 1, remain, links =>
    if remain.length = 0 then some links
    else
      match find '/' remain with
      | some 0 => splitLoop fuel (substr remain 1 none) links
      | some (pos + 1) =>
        splitLoop fuel (substr remain (pos + 1 + 1) none) (links ++ [substr remain 0 (some (pos + 1))])
      | none => splitLoop fuel [] (links ++ [substr remain 0 none])

/-- Second loop of `cleanPath`, `for (int i = 0; i < links.size();)`.
The test compares `i` as a `size_t` (`toSizeT`), so a negative `i` ends the
loop. `links[i]` and `links.begin() + i` are positions `i` of the vector.
`none` when the fuel runs out before the test fails. -/
def cleanLoop : Nat → List Str → Int → Option (List Str)
  | 0, _, _ => none
  | fuel + 1, links, i =>
    if toSizeT i < links.length then
      if links[i.toNat]? = some ['.', '.'] then
        let links1 := links.eraseIdx i.toNat
        let links2 := if i > 0 then links1.eraseIdx (i - 1).toNat else links1
        cleanLoop fuel links2 (i - 1)
      else if links[i.toNat]? = some ['.'] then
        cleanLoop fuel (links.eraseIdx i.toNat) i
      else
        cleanLoop fuel links (i + 1)
    else some links

/-- Third loop of `cleanPath`: `path += "/"; path += link;` for every link. -/
def joinLinks (links : List Str) : Str :=
  links.foldl (fun path link => path ++ ['/'] ++ link) []

/-- Source `cleanPath`, with `isDir` (an `lstat` call) as an oracle. The split
loop shortens `remain` every round and the clean loop either erases a link or
advances `i`, which bounds the fuel each needs. -/
def cleanPath (isDir : Str → Bool) (filepath : Str) : Option Str :=
  match splitLoop (filepath.length + 1) filepath [] with
  | none => none
  | some links =>
    match cleanLoop (2 * links.length + 1) links 0 with
    | none => none
    | some links =>
      let path := joinLinks links
      let path := if path.length = 0 then ['/'] else path
      let path := if isDir path ∧ path.getLast? ≠ some '/' then path ++ ['/'] else path
      some path

end Utils

/-! ## The value codec -/

namespace PythonEmbedded

/-- Modelled from the spec: the host's tagged dynamic value (`Value`, declared
in `coretypes.h`, which is not among the sources). The tags are the spec's:
integer, float, boolean, string, buffer of bytes, ordered sequence, and the
explicit "none" that an unsupported runtime object converts to. A float is
carried as its bit pattern: the codec does no arithmetic on it. -/
inductive DynamicValue where
  | none
  | integer (n : Int)
  | float (bits : Nat)
  | boolean (b : Bool)
  | string (s : Str)
  | buffer (bytes : List Nat)
  | sequence (vs : List DynamicValue)

/-- Modelled from the spec: the scripting runtime's native objects (`PyObject`,
from the runtime's own headers). Integers, floats, booleans, strings, ordered
collections and key-to-value mappings (entries in insertion order) are the
kinds the codec reads back; byte strings, the runtime's none and every `other`
kind (callables, capsules) are not. -/
inductive RuntimeObject where
  | none
  | integer (n : Int)
  | float (bits : Nat)
  | boolean (b : Bool)
  | string (s : Str)
  | bytes (bs : List Nat)
  | list (xs : List RuntimeObject)
  | mapping (entries : List (RuntimeObject × RuntimeObject))
  | other (kind : Nat)

/-- A 2-element (key, value) sequence. -/
def isPair : DynamicValue → Bool
  | .sequence [_, _] => true
  | _ => false

mutual
/-- Modelled from the spec: `convertFromValue(value, toDict)`, the spec's
`toRuntime(value, collapseToMapping)`; only its declaration is among the
sources. Scalars map directly; a sequence maps to an ordered native collection,
unless `collapseToMapping` is set and its elements are all 2-element sequences,
in which case it maps to a native mapping. -/
def toRuntime (collapseToMapping : Bool) : DynamicValue → RuntimeObject
  | .none => .none
  | .integer n => .integer n
  | .float x => .float x
  | .boolean b => .boolean b
  | .string s => .string s
  | .buffer b => .bytes b
  | .sequence vs =>
    if collapseToMapping && vs.all isPair then .mapping (toEntries collapseToMapping vs)
    else .list (toRuntimeList collapseToMapping vs)
/-- Element-wise `toRuntime`. -/
def toRuntimeList (collapseToMapping : Bool) : List DynamicValue → List RuntimeObject
  | [] => []
  | v :: vs => toRuntime collapseToMapping v :: toRuntimeList collapseToMapping vs
/-- The entries of the mapping a sequence of (key, value) pairs collapses to. -/
def toEntries (collapseToMapping : Bool) :
    List DynamicValue → List (RuntimeObject × RuntimeObject)
  | [] => []
  | .sequence [k, v] :: rest =>
    (toRuntime collapseToMapping k, toRuntime collapseToMapping v)
      :: toEntries collapseToMapping rest
  | _ :: rest => toEntries collapseToMapping rest
end

mutual
/-- Modelled from the spec: `convertToValue(pyObject)`, the spec's
`fromRuntime(object)`; only its declaration is among the sources. Native
integers, floats, strings and booleans map to scalars, ordered collections to
sequences (recursively), mappings to a sequence of 2-element (key, value)
sequences, and any other native kind to "none". -/
def fromRuntime : RuntimeObject → DynamicValue
  | .integer n => .integer n
  | .float x => .float x
  | .boolean b => .boolean b
  | .string s => .string s
  | .list xs => .sequence (fromRuntimeList xs)
  | .mapping es => .sequence (fromEntries es)
  | .none => .none
  | .bytes _ => .none
  | .other _ => .none
/-- Element-wise `fromRuntime`. -/
def fromRuntimeList : List RuntimeObject → List DynamicValue
  | [] => []
  | x :: xs => fromRuntime x :: fromRuntimeList xs
/-- One 2-element (key, value) sequence per entry of a mapping. -/
def fromEntries : List (RuntimeObject × RuntimeObject) → List DynamicValue
  | [] => []
  | (k, v) :: rest => .sequence [fromRuntime k, fromRuntime v] :: fromEntries rest
end

mutual
/-- A value built only from the tags integer, float, boolean, string and
(nested) ordered sequence. -/
def supported : DynamicValue → Bool
  | .integer _ => true
  | .float _ => true
  | .boolean _ => true
  | .string _ => true
  | .sequence vs => supportedList vs
  | .none => false
  | .buffer _ => false
/-- Every value of the list is `supported`. -/
def supportedList : List DynamicValue → Bool
  | [] => true
  | v :: vs => supported v && supportedList vs
end

end PythonEmbedded

/-! ## Reference path normalisation -/

namespace Reference

/-- Splitting a string at every `'/'`; `"a//b"` has the components `a`, the
empty string and `b`. -/
def splitOnSlash : Str → List Str
  | [] => [[]]
  | c :: cs =>
    if c = '/' then [] :: splitOnSlash cs
    else
      match splitOnSlash cs with
      | [] => [[c]]
      | h :: t => (c :: h) :: t

/-- The non-empty components of a path. -/
def components (p : Str) : List Str := (splitOnSlash p).filter (fun c => c ≠ [])

/-- Going through the components from the left with the list `kept` of the
surviving ones: `.` is dropped, `..` is dropped together with the nearest
preceding survivor, anything else survives. -/
def cancelDots : List Str → List Str → List Str
  | kept, [] => kept
  | kept, c :: cs =>
    if c = ['.', '.'] then cancelDots kept.dropLast cs
    else if c = ['.'] then cancelDots kept cs
    else cancelDots (kept ++ [c]) cs

/-- The components never climb above the root, starting `depth` ordinary
components below it: every `..` finds a survivor to cancel. -/
def staysBelowRootFrom : Nat → List Str → Bool
  | _, [] => true
  | depth, c :: cs =>
    if c = ['.', '.'] then decide (0 < depth) && staysBelowRootFrom (depth - 1) cs
    else if c = ['.'] then staysBelowRootFrom depth cs
    else staysBelowRootFrom (depth + 1) cs

/-- The path never climbs above the root. -/
def staysBelowRoot (p : Str) : Bool := staysBelowRootFrom 0 (components p)

/-- The surviving components of a path. -/
def normalise (p : Str) : List Str := cancelDots [] (components p)

end Reference

end Splash

namespace Splash

open Reference Utils

/-! ## Splitting -/

theorem splitOnSlash_ne_nil (s : Str) : splitOnSlash s ≠ [] := by
  induction s with
  | nil => simp [splitOnSlash]
  | cons c cs ih =>
    unfold splitOnSlash
    split
    · simp
    · split <;> simp

theorem splitOnSlash_of_find_none (s : Str) (h : find '/' s = none) :
    splitOnSlash s = [s] := by
  induction s with
  | nil => rfl
  | cons c cs ih =>
    unfold find at h
    split at h
    · simp at h
    · rename_i hc
      have h2 : find '/' cs = none := by simpa using h
      simp [splitOnSlash, hc, ih h2]

theorem splitOnSlash_of_find_some (s : Str) (k : Nat) (h : find '/' s = some k) :
    splitOnSlash s = s.take k :: splitOnSlash (s.drop (k + 1)) := by
  induction s generalizing k with
  | nil => simp [find] at h
  | cons c cs ih =>
    unfold find at h
    split at h
    · rename_i hc
      have hk : k = 0 := by simpa using h.symm
      subst hk
      simp [splitOnSlash, hc]
    · rename_i hc
      obtain ⟨j, hj, rfl⟩ : ∃ j, find '/' cs = some j ∧ j + 1 = k := by
        simpa [Option.map_eq_some'] using h
      simp [splitOnSlash, hc, ih j hj]

theorem find_lt_length (s : Str) (k : Nat) (h : find '/' s = some k) : k < s.length := by
  induction s generalizing k with
  | nil => simp [find] at h
  | cons c cs ih =>
    unfold find at h
    split at h
    · have hk : k = 0 := by simpa using h.symm
      subst hk
      simp
    · obtain ⟨j, hj, rfl⟩ : ∃ j, find '/' cs = some j ∧ j + 1 = k := by
        simpa [Option.map_eq_some'] using h
      have := ih j hj
      simp
      omega

/-- The split loop returns the links it was given followed by the non-empty
components of `remain`, whenever the fuel exceeds the length of `remain`. -/
theorem splitLoop_eq (fuel : Nat) (remain : Str) (links : List Str)
    (h : remain.length < fuel) :
    splitLoop fuel remain links = some (links ++ components remain) := by
  induction fuel generalizing remain links with
  | zero => omega
  | succ fuel ih =>
    unfold splitLoop
    split
    · rename_i h0
      have : remain = [] := List.length_eq_zero.mp h0
      subst this
      simp [components, splitOnSlash]
    · rename_i h0
      split
      · rename_i hf
        have hs := splitOnSlash_of_find_some remain 0 hf
        rw [ih _ _ (by simp [substr]; omega)]
        simp [components, hs, substr]
      · rename_i pos hf
        have hs := splitOnSlash_of_find_some remain (pos + 1) hf
        have hl := find_lt_length remain (pos + 1) hf
        rw [ih _ _ (by simp [substr]; omega)]
        have hne : List.take (pos + 1) remain ≠ [] := by
          intro hnil
          have := congrArg List.length hnil
          simp only [List.length_take, List.length_nil] at this
          omega
        simp [components, hs, substr, hne]
      · rename_i hf
        have hs := splitOnSlash_of_find_none remain hf
        have hne : remain ≠ [] := fun hnil => h0 (by simp [hnil])
        rw [ih _ _ (by simp; omega)]
        simp [components, hs, substr, hne, splitOnSlash]

/-! ## Cancelling the dot components -/

theorem toSizeT_natCast (n : Nat) : toSizeT (n : Int) = n := by
  simp [toSizeT]

/-- With `i` standing right after the links `kept` already gone through, and
the links still to come never climbing above the root, the clean loop returns
what the reference cancellation does, and within `rest.length + 1` rounds. -/
theorem cleanLoop_eq (rest kept : List Str) (fuel : Nat) (hf : rest.length < fuel)
    (hb : staysBelowRootFrom kept.length rest = true) :
    cleanLoop fuel (kept ++ rest) (kept.length : Int) = some (cancelDots kept rest) := by
  induction rest generalizing kept fuel with
  | nil =>
    cases fuel with
    | zero => simp at hf
    | succ fuel => simp [cleanLoop, toSizeT_natCast, cancelDots]
  | cons c cs ih =>
    cases fuel with
    | zero => simp at hf
    | succ fuel =>
      have hf2 : cs.length < fuel := by simpa using hf
      have hget : (kept ++ c :: cs)[kept.length]? = some c := by
        rw [List.getElem?_append_right (Nat.le_refl _)]
        simp
      have herase : (kept ++ c :: cs).eraseIdx kept.length = kept ++ cs := by
        rw [List.eraseIdx_append_of_length_le (Nat.le_refl _)]
        simp
      unfold cleanLoop
      rw [if_pos (by simp [toSizeT_natCast])]
      simp only [Int.toNat_ofNat, hget, herase, Option.some.injEq]
      unfold staysBelowRootFrom at hb
      unfold cancelDots
      by_cases h1 : c = ['.', '.']
      · rw [if_pos h1] at hb ⊢
        rw [if_pos h1]
        simp only [Bool.and_eq_true, decide_eq_true_eq] at hb
        obtain ⟨hpos, hb2⟩ := hb
        have hlen : kept.dropLast.length = kept.length - 1 := by simp
        have hi : ((kept.length : Int) - 1) = ((kept.dropLast.length : Nat) : Int) := by
          rw [hlen]; omega
        have he2 : (kept ++ cs).eraseIdx ((kept.length : Int) - 1).toNat
            = kept.dropLast ++ cs := by
          rw [hi, Int.toNat_ofNat, hlen,
            List.eraseIdx_append_of_lt_length (by omega)]
          congr 1
          exact (List.dropLast_eq_eraseIdx (by omega)).symm
        rw [if_pos (by omega), he2, hi]
        exact ih kept.dropLast fuel hf2 (by rw [hlen]; exact hb2)
      · rw [if_neg h1] at hb ⊢
        rw [if_neg h1]
        by_cases h2 : c = ['.']
        · rw [if_pos h2] at hb ⊢
          rw [if_pos h2]
          exact ih kept fuel hf2 hb
        · rw [if_neg h2] at hb ⊢
          rw [if_neg h2]
          have hk : kept ++ c :: cs = (kept ++ [c]) ++ cs := by simp
          have hi : ((kept.length : Int) + 1) = (((kept ++ [c]).length : Nat) : Int) := by
            simp
          rw [hk, hi]
          exact ih (kept ++ [c]) fuel hf2 (by simpa using hb)

/-! ## Joining the links -/

theorem foldl_join (links : List Str) (acc : Str) :
    links.foldl (fun path link => path ++ ['/'] ++ link) acc
      = acc ++ (links.map (fun l => '/' :: l)).flatten := by
  induction links generalizing acc with
  | nil => simp
  | cons l ls ih =>
    rw [List.foldl_cons, ih]
    simp

theorem intercalate_cons (sep x : Str) (xs : List Str) :
    List.intercalate sep (x :: xs) = x ++ (xs.map (fun l => sep ++ l)).flatten := by
  induction xs generalizing x with
  | nil => simp [List.intercalate]
  | cons y ys ih =>
    have h := ih y
    simp only [List.intercalate, List.intersperse, List.flatten_cons, List.map_cons] at h ⊢
    rw [h]
    simp

theorem joinLinks_eq (links : List Str) (h : links ≠ []) :
    joinLinks links = '/' :: List.intercalate ['/'] links := by
  cases links with
  | nil => exact absurd rfl h
  | cons l ls =>
    unfold joinLinks
    rw [foldl_join, intercalate_cons]
    simp

theorem joinLinks_getLast (links : List Str) (h : links ≠ [])
    (hl : ∀ l ∈ links, l ≠ [] ∧ '/' ∉ l) : (joinLinks links).getLast? ≠ some '/' := by
  obtain ⟨init, last, rfl⟩ : ∃ init last, links = init ++ [last] := by
    rcases List.eq_nil_or_concat links with h0 | ⟨init, last, h1⟩
    · exact absurd h0 h
    · exact ⟨init, last, by simpa using h1⟩
  obtain ⟨hne, hns⟩ := hl last (by simp)
  unfold joinLinks
  rw [List.foldl_append]
  simp only [List.foldl_cons, List.foldl_nil]
  rw [List.getLast?_append_of_ne_nil _ hne]
  intro hlast
  exact hns (List.mem_of_getLast?_eq_some hlast)

/-! ## The surviving components -/

theorem splitOnSlash_no_slash (s : Str) : ∀ c ∈ splitOnSlash s, '/' ∉ c := by
  induction s with
  | nil => simp [splitOnSlash]
  | cons x xs ih =>
    unfold splitOnSlash
    split
    · intro c hc
      rcases List.mem_cons.mp hc with rfl | hc
      · simp
      · exact ih c hc
    · rename_i hx
      split
      · intro c hc
        have : c = [x] := by simpa using hc
        subst this
        simpa using Ne.symm hx
      · rename_i h t heq
        intro c hc
        rcases List.mem_cons.mp hc with rfl | hc
        · have hh := ih h (by rw [heq]; simp)
          simp only [List.mem_cons, not_or]
          exact ⟨Ne.symm hx, hh⟩
        · exact ih c (by rw [heq]; simp [hc])

theorem components_spec (p : Str) : ∀ c ∈ components p, c ≠ [] ∧ '/' ∉ c := by
  intro c hc
  unfold components at hc
  rw [List.mem_filter] at hc
  exact ⟨by simpa using hc.2, splitOnSlash_no_slash p c hc.1⟩

theorem mem_cancelDots (rest kept : List Str) (x : Str) (hx : x ∈ cancelDots kept rest) :
    x ∈ kept ∨ x ∈ rest := by
  induction rest generalizing kept with
  | nil => exact Or.inl (by simpa [cancelDots] using hx)
  | cons c cs ih =>
    unfold cancelDots at hx
    split at hx
    · rcases ih _ hx with h | h
      · exact Or.inl (List.mem_of_mem_dropLast h)
      · exact Or.inr (List.mem_cons_of_mem _ h)
    · split at hx
      · rcases ih _ hx with h | h
        · exact Or.inl h
        · exact Or.inr (List.mem_cons_of_mem _ h)
      · rcases ih _ hx with h | h
        · rcases List.mem_append.mp h with h | h
          · exact Or.inl h
          · exact Or.inr (by simp at h; simp [h])
        · exact Or.inr (List.mem_cons_of_mem _ h)

theorem normalise_spec (p : Str) : ∀ c ∈ normalise p, c ≠ [] ∧ '/' ∉ c := by
  intro c hc
  rcases mem_cancelDots _ _ c hc with h | h
  · simp at h
  · exact components_spec p c h

/-! ## cleanPath on paths below the root -/

/-- C4. On a path that never climbs above the root, `cleanPath` returns, for
every directory oracle, `"/"` when no component survives the reference
normalisation (split at `'/'`, drop the empty and the `.` components, cancel
each `..` with the nearest preceding survivor), and otherwise `'/'` followed by
the `'/'`-joined survivors, with one more `'/'` at the end exactly when the
oracle reports that joined path to be a directory. -/
theorem cleanPath_eq_reference (isDir : Str → Bool) (p : Str)
    (h : staysBelowRoot p = true) :
    cleanPath isDir p = some (
      if normalise p = [] then ['/']
      else if isDir ('/' :: List.intercalate ['/'] (normalise p)) = true
        then '/' :: List.intercalate ['/'] (normalise p) ++ ['/']
        else '/' :: List.intercalate ['/'] (normalise p)) := by
  unfold cleanPath
  rw [splitLoop_eq _ _ _ (Nat.lt_succ_self _)]
  simp only [List.nil_append]
  have hc := cleanLoop_eq (components p) [] (2 * (components p).length + 1) (by omega)
    (by simpa [staysBelowRoot] using h)
  simp only [List.nil_append, List.length_nil, Nat.cast_zero] at hc
  rw [hc]
  show some _ = some _
  congr 1
  by_cases hn : normalise p = []
  · have hn2 : cancelDots [] (components p) = [] := hn
    simp [hn, hn2, joinLinks]
  · have hn2 : cancelDots [] (components p) ≠ [] := hn
    have hj := joinLinks_eq _ hn
    have hl := joinLinks_getLast _ hn (normalise_spec p)
    have hj2 : joinLinks (cancelDots [] (components p))
        = '/' :: List.intercalate ['/'] (normalise p) := hj
    have hl2 : ('/' :: List.intercalate ['/'] (normalise p)).getLast? ≠ some '/' := by
      rw [← hj]; exact hl
    rw [if_neg hn]
    simp only [hj2, List.length_cons, Nat.add_one_ne_zero, if_false]
    by_cases hd : isDir ('/' :: List.intercalate ['/'] (normalise p)) = true
    · rw [if_pos hd, if_pos ⟨hd, hl2⟩]
    · rw [if_neg hd, if_neg (fun hh => hd hh.1)]

/-- The path `/a/b/../c/./d//e/` stays below the root; with an oracle that
reports no directory its clean form is `/a/c/d/e`. -/
theorem cleanPath_eq_reference_witness :
    staysBelowRoot "/a/b/../c/./d//e/".toList = true ∧
    cleanPath (fun _ => false) "/a/b/../c/./d//e/".toList = some "/a/c/d/e".toList :=
  ⟨by decide,
   (cleanPath_eq_reference (fun _ => false) "/a/b/../c/./d//e/".toList (by decide)).trans
     (by decide)⟩

/-- C5. At the path `../..`, which climbs above the root, `cleanPath` stops
after the first link: it returns `/..` (and `/../` when the oracle reports a
directory), a path with a `..` component; at `../a/./b` the `.` survives too. -/
theorem cleanPath_keeps_dot_components :
    cleanPath (fun _ => false) "../..".toList = some "/..".toList ∧
    cleanPath (fun _ => true) "../..".toList = some "/../".toList ∧
    cleanPath (fun _ => false) "../a/./b".toList = some "/a/./b".toList ∧
    ['.', '.'] ∈ splitOnSlash "/..".toList ∧
    ['.', '.'] ∈ splitOnSlash "/../".toList ∧
    ['.'] ∈ splitOnSlash "/a/./b".toList := by
  decide

/-! ## getFilenameFromFilePath -/

theorem rfind_eq_none (c : Char) (s : Str) : rfind c s = none ↔ c ∉ s := by
  induction s with
  | nil => simp [rfind]
  | cons x xs ih =>
    unfold rfind
    split
    · rename_i k hk
      have : c ∈ xs := by
        by_contra hc
        rw [ih.mpr hc] at hk
        simp at hk
      simp [this]
    · rename_i hk
      have hc := ih.mp hk
      by_cases hx : x = c
      · simp [hx]
      · simp [hx, hc, Ne.symm hx]

theorem rfind_eq_some (c : Char) (s : Str) (k : Nat) (h : rfind c s = some k) :
    s = s.take k ++ c :: s.drop (k + 1) ∧ c ∉ s.drop (k + 1) := by
  induction s generalizing k with
  | nil => simp [rfind] at h
  | cons x xs ih =>
    unfold rfind at h
    split at h
    · rename_i j hj
      have hk : j + 1 = k := by simpa using h
      subst hk
      obtain ⟨h1, h2⟩ := ih j hj
      refine ⟨?_, by simpa using h2⟩
      simp only [List.take_succ_cons, List.drop_succ_cons, List.cons_append]
      rw [← h1]
    · rename_i hj
      split at h
      · rename_i hx
        have hk : k = 0 := by simpa using h.symm
        subst hk
        exact ⟨by simp [hx], by simpa using (rfind_eq_none c xs).mp hj⟩
      · simp at h

/-- C2. `getFilenameFromFilePath p` is `p` itself when `p` has no `'/'`, and
otherwise the suffix of `p` after its last `'/'` (what follows a `'/'` and has
none itself). So the result never has a `'/'`, and `p` is some `q` followed by
the result, where `q` is empty or ends with `'/'`. -/
theorem getFilenameFromFilePath_spec (p : Str) :
    ('/' ∉ p → getFilenameFromFilePath p = p) ∧
    ('/' ∈ p → ∃ q, p = q ++ '/' :: getFilenameFromFilePath p) ∧
    '/' ∉ getFilenameFromFilePath p ∧
    ∃ q, p = q ++ getFilenameFromFilePath p ∧ (q = [] ∨ q.getLast? = some '/') := by
  unfold getFilenameFromFilePath
  cases hr : rfind '/' p with
  | none =>
    have hno := (rfind_eq_none '/' p).mp hr
    exact ⟨fun _ => rfl, fun hin => absurd hin hno, hno, [], rfl, Or.inl rfl⟩
  | some k =>
    obtain ⟨h1, h2⟩ := rfind_eq_some '/' p k hr
    have hin : '/' ∈ p := by
      rw [h1]; simp
    refine ⟨fun hno => absurd hin hno, fun _ => ⟨p.take k, h1⟩, h2, p.take k ++ ['/'], ?_, ?_⟩
    · simpa [substr] using h1
    · right; simp

/-! ## binomialCoeff -/

open Mesh_BezierPatch

set_option maxRecDepth 100000 in
theorem binomialCoeff_table : ∀ n i : Fin 13, i.val ≤ n.val →
    semiFactorial (n.val : Int) (i.val : Int) = some ((Nat.descFactorial n.val i.val : Nat) : Int) ∧
    factorial (i.val : Int) = some ((Nat.factorial i.val : Nat) : Int) ∧
    Nat.descFactorial n.val i.val % Nat.factorial i.val = 0 ∧
    binomialCoeff (n.val : Int) (i.val : Int) = some ((Nat.choose n.val i.val : Nat) : Int) := by
  decide

/-- C6. For `0 ≤ n ≤ 12` and `i ≥ 0`, `binomialCoeff n i` in 32-bit arithmetic
is the binomial coefficient `C(n, i)` (which is `0` for `i > n`); and when
`i ≤ n` the two factorials are the exact `n! / (n - i)!` and `i!`, the divisor
is not zero and the division leaves no remainder. -/
theorem binomialCoeff_eq_choose (n i : Int) (hn0 : 0 ≤ n) (hn : n ≤ 12) (hi : 0 ≤ i) :
    binomialCoeff n i = some ((Nat.choose n.toNat i.toNat : Nat) : Int) ∧
    (i ≤ n → ∃ a d : Int, semiFactorial n i = some a ∧ factorial i = some d ∧
      a = ((Nat.descFactorial n.toNat i.toNat : Nat) : Int) ∧
      d = ((Nat.factorial i.toNat : Nat) : Int) ∧ d ≠ 0 ∧ a % d = 0) := by
  obtain ⟨n, rfl⟩ := Int.eq_ofNat_of_zero_le hn0
  obtain ⟨i, rfl⟩ := Int.eq_ofNat_of_zero_le hi
  have hn2 : n < 13 := by omega
  simp only [Int.toNat_ofNat]
  by_cases hle : i ≤ n
  · obtain ⟨h1, h2, h3, h4⟩ := binomialCoeff_table ⟨n, hn2⟩ ⟨i, by omega⟩ hle
    simp only at h1 h2 h3 h4
    refine ⟨h4, fun _ => ⟨_, _, h1, h2, rfl, rfl, ?_, ?_⟩⟩
    · exact_mod_cast Nat.factorial_ne_zero i
    · exact_mod_cast h3
  · have hlt : (n : Int) < (i : Int) := by omega
    refine ⟨?_, fun h => absurd h (by omega)⟩
    rw [Nat.choose_eq_zero_of_lt (by omega)]
    simp [binomialCoeff, hlt]

/-- The pair `n = 12`, `i = 5` is in range: `binomialCoeff 12 5 = C(12, 5) = 792`. -/
theorem binomialCoeff_eq_choose_witness :
    (0 : Int) ≤ 12 ∧ (12 : Int) ≤ 12 ∧ (0 : Int) ≤ 5 ∧ binomialCoeff 12 5 = some 792 :=
  ⟨by decide, by decide, by decide,
   (binomialCoeff_eq_choose 12 5 (by decide) (by decide) (by decide)).1.trans (by decide)⟩

set_option maxRecDepth 100000 in
/-- C7. `C(13, 12) = 13` fits a signed 32-bit integer, but the products wrap:
`factorial(13, 12)` is `13! mod 2 ^ 32` and `binomialCoeff 13 12` returns `4`.
At `n = i = 34` the divisor `34! mod 2 ^ 32` is `0` and the division has no
result. -/
theorem binomialCoeff_wraps :
    Nat.choose 13 12 = 13 ∧
    semiFactorial 13 12 = some 1932053504 ∧
    factorial 12 = some 479001600 ∧
    binomialCoeff 13 12 = some 4 ∧
    Nat.choose 34 34 = 1 ∧
    factorial 34 = some 0 ∧
    binomialCoeff 34 34 = none := by
  decide

/-! ## The value codec -/

open PythonEmbedded

mutual
theorem fromRuntime_toRuntime_aux (v : DynamicValue) (h : supported v = true) :
    fromRuntime (toRuntime false v) = v := by
  cases v with
  | none => simp [supported] at h
  | buffer b => simp [supported] at h
  | integer n => simp [toRuntime, fromRuntime]
  | float x => simp [toRuntime, fromRuntime]
  | boolean b => simp [toRuntime, fromRuntime]
  | string s => simp [toRuntime, fromRuntime]
  | sequence vs =>
    simp only [supported] at h
    simp [toRuntime, fromRuntime, fromRuntimeList_toRuntimeList_aux vs h]
theorem fromRuntimeList_toRuntimeList_aux (vs : List DynamicValue)
    (h : supportedList vs = true) :
    fromRuntimeList (toRuntimeList false vs) = vs := by
  cases vs with
  | nil => simp [toRuntimeList, fromRuntimeList]
  | cons v vs =>
    simp only [supportedList, Bool.and_eq_true] at h
    simp [toRuntimeList, fromRuntimeList, fromRuntime_toRuntime_aux v h.1,
      fromRuntimeList_toRuntimeList_aux vs h.2]
end

/-- C1. Round trip of the value codec: a value built only from the tags
integer, float, boolean, string and nested ordered sequence, converted to the
runtime representation and back, is the value again. -/
theorem fromRuntime_toRuntime (v : DynamicValue) (h : supported v = true) :
    fromRuntime (toRuntime false v) = v :=
  fromRuntime_toRuntime_aux v h

/-- The sequence `[3, ["a", true], 1.0]` is built from supported tags and
comes back unchanged. -/
theorem fromRuntime_toRuntime_witness :
    supported (.sequence [.integer 3,
      .sequence [.string ['a'], .boolean true], .float 1065353216]) = true ∧
    fromRuntime (toRuntime false (.sequence [.integer 3,
      .sequence [.string ['a'], .boolean true], .float 1065353216]))
      = .sequence [.integer 3,
          .sequence [.string ['a'], .boolean true], .float 1065353216] :=
  ⟨by decide, fromRuntime_toRuntime _ (by decide)⟩

end Splash
